import Mathlib

/-!
Verification of the CPSO doctor-registry scraper.

This file gives a shallow embedding, in Lean, of the core logic of the
repository: the postal-code permutation generators and the length filter
of `create-postal-code-permutations.py`, the phone formatting, cap
classification and deduplication of `create-output.py`, and the retry /
backoff fetch loop with its raw-file store of `scrape-cpso.py`.  Network
and file-system effects are modelled by explicit oracles (an outcome per
attempt) and by an association list of file names to payloads; everything
else is translated function by function from the Python source.
-/

namespace Cpso

/-! ## Permutation generators (create-postal-code-permutations.py) -/

/-- Valid letters for Canadian postal codes: uppercase ASCII letters with
D, F, I, O, Q, U removed (source line 13). -/
def VALID_LETTERS : List Char :=
  "ABCDEFGHIJKLMNOPQRSTUVWXYZ".toList.filter (fun c => c ∉ ['D', 'F', 'I', 'O', 'Q', 'U'])

/-- Valid digits for Canadian postal codes (source line 14). -/
def VALID_DIGITS : List Char := "0123456789".toList

/-- Rank-1 expansion: for each incoming code, extend the accumulator with
the code, a "+" separator and one digit (source lines 16-31). -/
def generate_ldu1_permutations (postal_codes : List String) : List String :=
  postal_codes.foldl
    (fun acc postal_code => acc ++ VALID_DIGITS.map (fun d => postal_code ++ "+" ++ d.toString))
    []

/-- Rank-2 expansion: for each incoming code, extend the accumulator with
the code followed by one valid letter (source lines 33-48). -/
def generate_ldu2_permutations (postal_codes : List String) : List String :=
  postal_codes.foldl
    (fun acc postal_code => acc ++ VALID_LETTERS.map (fun l => postal_code ++ l.toString))
    []

/-- Rank-3 expansion: for each incoming code, extend the accumulator with
the code followed by one digit (source lines 50-65). -/
def generate_ldu3_permutations (postal_codes : List String) : List String :=
  postal_codes.foldl
    (fun acc postal_code => acc ++ VALID_DIGITS.map (fun d => postal_code ++ d.toString))
    []

/-- The length of a code once every separator character has been removed,
as computed by the main block with code.replace applied to "+"
(source line 199). -/
def trueLen (code : String) : Nat :=
  (code.toList.filter (fun c => c ≠ '+')).length

/-! Basic facts about the generators. -/

theorem foldl_append_extend {α β : Type} (f : α → List β) :
    ∀ (l : List α) (acc : List β),
      l.foldl (fun acc a => acc ++ f a) acc = acc ++ l.flatMap f := by
  intro l
  induction l with
  | nil => intro acc; simp
  | cons a l ih => intro acc; simp [List.foldl_cons, ih]

theorem generate_ldu1_singleton (p : String) :
    generate_ldu1_permutations [p] = VALID_DIGITS.map (fun d => p ++ "+" ++ d.toString) := by
  simp [generate_ldu1_permutations, foldl_append_extend]

theorem generate_ldu2_singleton (p : String) :
    generate_ldu2_permutations [p] = VALID_LETTERS.map (fun l => p ++ l.toString) := by
  simp [generate_ldu2_permutations, foldl_append_extend]

theorem generate_ldu3_singleton (p : String) :
    generate_ldu3_permutations [p] = VALID_DIGITS.map (fun d => p ++ d.toString) := by
  simp [generate_ldu3_permutations, foldl_append_extend]

theorem length_char_toString (c : Char) : (Char.toString c).length = 1 := rfl

theorem length_sep : ("+" : String).length = 1 := rfl

theorem toList_char_toString (c : Char) : (Char.toString c).toList = [c] := rfl

theorem length_append_sep_digit (p : String) (d : Char) :
    (p ++ "+" ++ d.toString).length = p.length + 2 := by
  simp [String.length_append, length_char_toString, length_sep]

theorem length_append_char (p : String) (c : Char) :
    (p ++ c.toString).length = p.length + 1 := by
  simp [String.length_append, length_char_toString]

theorem toList_append (s t : String) : (s ++ t).toList = s.toList ++ t.toList := by
  simp [String.toList, String.data_append]

theorem trueLen_append_sep_digit (p : String) (d : Char) (hd : d ≠ '+') :
    trueLen (p ++ "+" ++ d.toString) = trueLen p + 1 := by
  have h1 : (p ++ "+" ++ d.toString).toList = p.toList ++ ['+'] ++ [d] := by
    rw [toList_append, toList_append, toList_char_toString]
    rfl
  rw [trueLen, trueLen, h1]
  simp [List.filter_append, hd]

theorem trueLen_append_char (p : String) (c : Char) (hc : c ≠ '+') :
    trueLen (p ++ c.toString) = trueLen p + 1 := by
  have h1 : (p ++ c.toString).toList = p.toList ++ [c] := by
    rw [toList_append, toList_char_toString]
  rw [trueLen, trueLen, h1]
  simp [List.filter_append, hc]

theorem VALID_DIGITS_eq :
    VALID_DIGITS = ['0', '1', '2', '3', '4', '5', '6', '7', '8', '9'] := rfl

theorem VALID_LETTERS_eq :
    VALID_LETTERS = ['A', 'B', 'C', 'E', 'G', 'H', 'J', 'K', 'L', 'M',
      'N', 'P', 'R', 'S', 'T', 'V', 'W', 'X', 'Y', 'Z'] := rfl

theorem ldu1_map_length (p : String) :
    (generate_ldu1_permutations [p]).map String.length = List.replicate 10 (p.length + 2) := by
  rw [generate_ldu1_singleton, VALID_DIGITS_eq]
  simp [length_append_sep_digit, length_sep, List.replicate]

theorem ldu1_map_trueLen (p : String) :
    (generate_ldu1_permutations [p]).map trueLen = List.replicate 10 (trueLen p + 1) := by
  rw [generate_ldu1_singleton, VALID_DIGITS_eq]
  simp [List.replicate, trueLen_append_sep_digit]

theorem ldu2_map_length (p : String) :
    (generate_ldu2_permutations [p]).map String.length = List.replicate 20 (p.length + 1) := by
  rw [generate_ldu2_singleton, VALID_LETTERS_eq]
  simp [length_append_char, List.replicate]

theorem ldu3_map_length (p : String) :
    (generate_ldu3_permutations [p]).map String.length = List.replicate 10 (p.length + 1) := by
  rw [generate_ldu3_singleton, VALID_DIGITS_eq]
  simp [length_append_char, List.replicate]

/-! ## Length filter and main flow of create-postal-code-permutations.py -/

/-- Required input length per level, from the dict on source line 192:
3 for level 1, 4 for level 2, 5 for level 3, undefined otherwise. -/
def requiredLengthMap : Nat → Option Nat
  | 1 => some 3
  | 2 => some 4
  | 3 => some 5
  | _ => none

/-- Level number to level string, from the dict on source line 213. -/
def levelMap : Nat → Option String
  | 1 => some "ldu1"
  | 2 => some "ldu2"
  | 3 => some "ldu3"
  | _ => none

/-- The filtering loop of source lines 196-201: build the filtered list by
appending every code whose length without "+" characters equals the
required length. -/
def filterByLength (postal_codes : List String) (required_length : Nat) : List String :=
  postal_codes.foldl
    (fun filtered code => if trueLen code = required_length then filtered ++ [code] else filtered)
    []

/-- Dispatch of generate_and_save_permutations (source lines 102-112):
pick the generator by level string, or fail on an invalid level. -/
def generate_and_save_permutations (postal_codes : List String) (level : String) :
    Option (List String) :=
  if level = "ldu1" then some (generate_ldu1_permutations postal_codes)
  else if level = "ldu2" then some (generate_ldu2_permutations postal_codes)
  else if level = "ldu3" then some (generate_ldu3_permutations postal_codes)
  else none

/-- The main block of create-postal-code-permutations.py (source lines
188-221): look up the required length, filter the loaded codes by true
length, exit when nothing is left, then generate permutations from the
surviving codes.  A none result models the sys.exit branches. -/
def mainGenerate (postal_codes : List String) (level : Nat) : Option (List String) :=
  match requiredLengthMap level with
  | none => none
  | some required_length =>
    let filtered := filterByLength postal_codes required_length
    if filtered.isEmpty then none
    else
      match levelMap level with
      | none => none
      | some levelStr => generate_and_save_permutations filtered levelStr

theorem filterByLength_go (required : Nat) :
    ∀ (codes : List String) (acc : List String),
      codes.foldl
        (fun filtered code =>
          if trueLen code = required then filtered ++ [code] else filtered) acc =
        acc ++ codes.filter (fun code => trueLen code = required) := by
  intro codes
  induction codes with
  | nil => intro acc; simp
  | cons c cs ih =>
    intro acc
    by_cases h : trueLen c = required <;> simp [List.foldl_cons, h, ih]

theorem filterByLength_eq_filter (codes : List String) (required : Nat) :
    filterByLength codes required = codes.filter (fun code => trueLen code = required) := by
  simp [filterByLength, filterByLength_go]

theorem mem_filterByLength (codes : List String) (required : Nat) (c : String) :
    c ∈ filterByLength codes required ↔ c ∈ codes ∧ trueLen c = required := by
  simp [filterByLength_eq_filter, List.mem_filter]

theorem filterByLength_idem (codes : List String) (required : Nat) :
    filterByLength (filterByLength codes required) required =
      filterByLength codes required := by
  simp only [filterByLength_eq_filter]
  rw [List.filter_filter]
  simp

/-- C3: at every valid level the survivors of the length filter are
exactly the codes whose length without "+" characters equals the required
length for the level; a key failing the filter never reaches the
generators (running the main flow on the filtered set gives the same
outcome), and as long as at least one key survives the run proceeds to
generation rather than exiting. -/
theorem C3_length_filter (level : Nat) (hlevel : level = 1 ∨ level = 2 ∨ level = 3)
    (codes : List String) :
    ∃ required, requiredLengthMap level = some required ∧
      (∀ c, c ∈ filterByLength codes required ↔ c ∈ codes ∧ trueLen c = required) ∧
      (∀ c ∈ codes, trueLen c ≠ required → c ∉ filterByLength codes required) ∧
      mainGenerate codes level = mainGenerate (filterByLength codes required) level ∧
      (filterByLength codes required ≠ [] → (mainGenerate codes level).isSome) := by
  have hreq : ∃ required, requiredLengthMap level = some required ∧
      (levelMap level).isSome := by
    rcases hlevel with h | h | h <;> subst h <;> exact ⟨_, rfl, rfl⟩
  obtain ⟨required, hreq, hlm⟩ := hreq
  refine ⟨required, hreq, fun c => mem_filterByLength codes required c,
    fun c _ hne hmem => hne ((mem_filterByLength codes required c).mp hmem).2, ?_, ?_⟩
  · simp only [mainGenerate, hreq, filterByLength_idem]
  · intro hne
    have hne' : (filterByLength codes required).isEmpty = false := by
      simpa [List.isEmpty_iff] using hne
    simp only [mainGenerate, hreq, hne']
    simp only [Bool.false_eq_true, if_false]
    rcases hlevel with h | h | h <;> subst h <;>
      simp [levelMap, generate_and_save_permutations]

/-- C3 witness: at level 1 with one 3-character key and one overlong key,
the filter keeps exactly the 3-character key and the run still generates. -/
theorem C3_length_filter_witness :
    ((1 : Nat) = 1 ∨ (1 : Nat) = 2 ∨ (1 : Nat) = 3) ∧
      ∃ required, requiredLengthMap 1 = some required ∧
        (∀ c, c ∈ filterByLength ["K1A", "K1A+00"] required ↔
          c ∈ ["K1A", "K1A+00"] ∧ trueLen c = required) ∧
        (∀ c ∈ ["K1A", "K1A+00"], trueLen c ≠ required →
          c ∉ filterByLength ["K1A", "K1A+00"] required) ∧
        mainGenerate ["K1A", "K1A+00"] 1 =
          mainGenerate (filterByLength ["K1A", "K1A+00"] required) 1 ∧
        (filterByLength ["K1A", "K1A+00"] required ≠ [] →
          (mainGenerate ["K1A", "K1A+00"] 1).isSome) :=
  ⟨Or.inl rfl, C3_length_filter 1 (Or.inl rfl) ["K1A", "K1A+00"]⟩

/-! ## The JSON branch of load_postal_codes (source lines 132-142)

The loop appends the postal_code of every capped dict to a fresh list,
but any element that is not a capped dict makes the variable an alias of
the input list itself; after that, appends mutate the list being iterated
over, so appended values are visited too.  JVal models a JSON value with
the fields the loop touches: obj carries the totalcount entry (none when
the key is absent) and the value stored under postal_code (null when the
key is absent, matching the None returned by item.get). -/

inductive JVal where
  | obj (totalcount : Option Int) (postal_code : JVal)
  | str (s : String)
  | null
deriving DecidableEq, Repr

/-- isinstance(item, dict) and item.get of totalcount equal to -1. -/
def isCappedDict : JVal → Bool
  | .obj tc _ => tc == some (-1)
  | _ => false

/-- item.get applied to postal_code; null when item is not a dict (the
loop only reads it on dicts). -/
def pcOf : JVal → JVal
  | .obj _ pc => pc
  | _ => .null

/-- Structural size of a JVal, used as the termination measure for the
aliased phase of the loop. -/
def sizeJ : JVal → Nat
  | .obj _ pc => sizeJ pc + 1
  | _ => 1

theorem sizeJ_pcOf_lt (v : JVal) (h : isCappedDict v = true) : sizeJ (pcOf v) < sizeJ v := by
  cases v with
  | obj tc pc => simp [pcOf, sizeJ]
  | str s => simp [isCappedDict] at h
  | null => simp [isCappedDict] at h

/-- The loop after postal_codes has become an alias of data: done holds
the elements already visited, pending those still to visit; appending the
postal_code of a capped dict extends the very list being iterated. -/
def loadAliased : List JVal → List JVal → List JVal
  | done, [] => done
  | done, item :: rest =>
    if h : isCappedDict item = true then loadAliased (done ++ [item]) (rest ++ [pcOf item])
    else loadAliased (done ++ [item]) rest
termination_by done pending => (pending.map sizeJ).sum
decreasing_by
  · simp only [List.map_append, List.map_cons, List.sum_append, List.map_nil, List.sum_cons,
      List.sum_nil]
    have := sizeJ_pcOf_lt item h
    omega
  · simp only [List.map_cons, List.sum_cons]
    have : 0 < sizeJ item := by cases item <;> simp [sizeJ]
    omega

/-- The loop while postal_codes is still the fresh list: capped dicts
append their postal_code to acc; the first element that is not a capped
dict turns postal_codes into an alias of data and the iteration continues
in the aliased phase. -/
def loadFresh : List JVal → List JVal → List JVal → List JVal
  | acc, _, [] => acc
  | acc, processed, item :: rest =>
    if isCappedDict item = true then loadFresh (acc ++ [pcOf item]) (processed ++ [item]) rest
    else loadAliased (processed ++ [item]) rest

/-- The JSON branch of load_postal_codes: run the loop over data starting
with a fresh empty list. -/
def load_postal_codes_json (data : List JVal) : List JVal :=
  loadFresh [] [] data

theorem loadFresh_all_capped :
    ∀ (data acc processed : List JVal), (∀ i ∈ data, isCappedDict i = true) →
      loadFresh acc processed data = acc ++ data.map pcOf := by
  intro data
  induction data with
  | nil => intro acc processed _; simp [loadFresh]
  | cons item rest ih =>
    intro acc processed h
    have hitem : isCappedDict item = true := h item (List.mem_cons_self item rest)
    rw [loadFresh, if_pos hitem, ih (acc ++ [pcOf item]) (processed ++ [item])
      (fun i hi => h i (List.mem_cons_of_mem item hi))]
    simp

theorem loadFresh_break :
    ∀ (pre : List JVal) (x : JVal) (post acc processed : List JVal),
      (∀ i ∈ pre, isCappedDict i = true) → isCappedDict x = false →
      loadFresh acc processed (pre ++ x :: post) =
        loadAliased (processed ++ pre ++ [x]) post := by
  intro pre
  induction pre with
  | nil =>
    intro x post acc processed _ hx
    rw [List.nil_append, loadFresh, if_neg (by simp [hx])]
    simp
  | cons item pretail ih =>
    intro x post acc processed h hx
    have hitem : isCappedDict item = true := h item (List.mem_cons_self item pretail)
    rw [List.cons_append, loadFresh, if_pos hitem,
      ih x post (acc ++ [pcOf item]) (processed ++ [item])
        (fun i hi => h i (List.mem_cons_of_mem item hi)) hx]
    simp

theorem loadAliased_eq :
    ∀ (done pending : List JVal),
      (∀ i ∈ pending, isCappedDict i = true → isCappedDict (pcOf i) = false) →
      loadAliased done pending =
        done ++ pending ++ (pending.filter (fun i => isCappedDict i)).map pcOf := by
  intro done pending
  induction done, pending using loadAliased.induct with
  | case1 done => intro _; simp [loadAliased]
  | case2 done item rest h ih =>
    intro hsafe
    have hpc : isCappedDict (pcOf item) = false :=
      hsafe item (List.mem_cons_self item rest) h
    rw [loadAliased, dif_pos h, ih ?_]
    · simp [List.filter_append, List.filter_cons, h, hpc]
    · intro i hi hcap
      rcases List.mem_append.mp hi with hmem | hmem
      · exact hsafe i (List.mem_cons_of_mem item hmem) hcap
      · rw [List.mem_singleton.mp hmem] at hcap
        rw [List.mem_singleton.mp hmem]
        exact absurd hcap (by simp [hpc])
  | case3 done item rest h ih =>
    intro hsafe
    rw [loadAliased, dif_neg h, ih
      (fun i hi hcap => hsafe i (List.mem_cons_of_mem item hi) hcap)]
    have h' : isCappedDict item = false := by
      revert h; cases isCappedDict item <;> simp
    simp [List.filter_cons, h']

/-- C10: on a JSON input list the loader returns the postal_code values
of the elements, in order, when every element is a dict with totalcount
equal to -1; as soon as some element is not such a dict, the returned
list is the whole input list followed by the postal_code of every capped
dict occurring after that first non-capped element (stated here for
inputs whose capped dicts carry postal_code values that are not
themselves capped dicts, as any real postal_code string is). -/
theorem C10_json_loader :
    (∀ data : List JVal, (∀ i ∈ data, isCappedDict i = true) →
      load_postal_codes_json data = data.map pcOf) ∧
    (∀ (pre : List JVal) (x : JVal) (post : List JVal),
      (∀ i ∈ pre, isCappedDict i = true) → isCappedDict x = false →
      (∀ i ∈ post, isCappedDict i = true → isCappedDict (pcOf i) = false) →
      load_postal_codes_json (pre ++ x :: post) =
        (pre ++ x :: post) ++ (post.filter (fun i => isCappedDict i)).map pcOf) := by
  constructor
  · intro data h
    rw [load_postal_codes_json, loadFresh_all_capped data [] [] h]
    simp
  · intro pre x post hpre hx hpost
    rw [load_postal_codes_json, loadFresh_break pre x post [] [] hpre hx,
      loadAliased_eq (([] : List JVal) ++ pre ++ [x]) post hpost]
    simp

/-- C10 witness: a list of two capped dicts yields their postal codes;
a list with a capped dict, a plain string and another capped dict yields
the whole input followed by the second postal code again. -/
theorem C10_json_loader_witness :
    load_postal_codes_json
        [JVal.obj (some (-1)) (JVal.str "K1A"), JVal.obj (some (-1)) (JVal.str "K2B")] =
      [JVal.str "K1A", JVal.str "K2B"] ∧
    load_postal_codes_json
        [JVal.obj (some (-1)) (JVal.str "A"), JVal.str "x",
          JVal.obj (some (-1)) (JVal.str "B")] =
      [JVal.obj (some (-1)) (JVal.str "A"), JVal.str "x",
        JVal.obj (some (-1)) (JVal.str "B"), JVal.str "B"] := by
  constructor
  · rw [C10_json_loader.1
      [JVal.obj (some (-1)) (JVal.str "K1A"), JVal.obj (some (-1)) (JVal.str "K2B")]
      (by decide)]
    decide
  · have h := C10_json_loader.2 [JVal.obj (some (-1)) (JVal.str "A")] (JVal.str "x")
      [JVal.obj (some (-1)) (JVal.str "B")] (by decide) (by decide) (by decide)
    simp only [List.cons_append, List.nil_append] at h
    rw [h]
    decide

/-! ## Output processing (create-output.py) -/

/-- One row of the summary table: the postal_code and totalcount read
from a raw JSON file (source lines 74-77). -/
structure SummaryRow where
  postal_code : String
  totalcount : Int
deriving DecidableEq, Repr

/-- The capped-row selection of source lines 104-107: totalcount equal to
-1 and a postal_code whose literal string length is 7. -/
def findCappedRows (rows : List SummaryRow) : List SummaryRow :=
  rows.filter (fun r => r.totalcount == -1 && r.postal_code.length == 7)

/-- The CSV branch of load_postal_codes (create-postal-code-permutations.py
lines 143-148): keep the rows whose totalcount is -1 and return their
postal_code column. -/
def load_postal_codes_csv (rows : List SummaryRow) : List String :=
  (rows.filter (fun r => r.totalcount == -1)).map (fun r => r.postal_code)

/-- C2: a summary row is selected as capped exactly when its totalcount is
-1 and its rendered postal_code string has literal length 7; every row
with a nonnegative totalcount is left out of the capped set (treated as
complete); and the CSV refinement-input loader returns exactly the
postal codes of rows whose totalcount is -1. -/
theorem C2_cap_classifier :
    (∀ rows : List SummaryRow, ∀ r ∈ rows,
      (r ∈ findCappedRows rows ↔ r.totalcount = -1 ∧ r.postal_code.length = 7)) ∧
    (∀ rows : List SummaryRow, ∀ r ∈ rows, 0 ≤ r.totalcount → r ∉ findCappedRows rows) ∧
    (∀ rows : List SummaryRow, ∀ k : String,
      k ∈ load_postal_codes_csv rows ↔ ∃ r ∈ rows, r.totalcount = -1 ∧ r.postal_code = k) := by
  refine ⟨?_, ?_, ?_⟩
  · intro rows r hr
    simp [findCappedRows, List.mem_filter, hr]
  · intro rows r hr hnonneg hmem
    have := (List.mem_filter.mp hmem).2
    simp only [Bool.and_eq_true, beq_iff_eq] at this
    omega
  · intro rows k
    simp only [load_postal_codes_csv, List.mem_map, List.mem_filter, beq_iff_eq]
    constructor
    · rintro ⟨r, ⟨hmem, htc⟩, rfl⟩
      exact ⟨r, hmem, htc, rfl⟩
    · rintro ⟨r, hmem, htc, rfl⟩
      exact ⟨r, ⟨hmem, htc⟩, rfl⟩

/-- C2 witness: a row with totalcount -1 and a 7-character code is capped,
a row with totalcount 5 is not, and the CSV loader keeps exactly the
totalcount -1 row. -/
theorem C2_cap_classifier_witness :
    (⟨"K1A+0+A", -1⟩ : SummaryRow) ∈ findCappedRows [⟨"K1A+0+A", -1⟩] ∧
    (⟨"K1A", 5⟩ : SummaryRow) ∉ findCappedRows [⟨"K1A", 5⟩] ∧
    "K1A" ∈ load_postal_codes_csv [⟨"K1A", -1⟩, ⟨"K2B", 3⟩] :=
  ⟨(C2_cap_classifier.1 _ _ (by decide)).mpr (by decide),
   C2_cap_classifier.2.1 _ _ (by decide) (by decide),
   (C2_cap_classifier.2.2 _ _).mpr ⟨⟨"K1A", -1⟩, by decide, by decide, rfl⟩⟩

/-- One detail record: the unique cpsonumber identifier plus the other
fields of the row, kept opaque as key-value pairs. -/
structure DetailRecord where
  cpsonumber : String
  fields : List (String × String)
deriving DecidableEq, Repr

/-- Deduplication by cpsonumber with first occurrence kept, as performed
by drop_duplicates on the cpsonumber column (create-output.py line 95):
keep the head and drop every later record with the same identifier. -/
def drop_duplicates_by_cpso : List DetailRecord → List DetailRecord
  | [] => []
  | r :: rs =>
    r :: drop_duplicates_by_cpso (rs.filter (fun x => x.cpsonumber ≠ r.cpsonumber))
termination_by rows => rows.length
decreasing_by
  have := List.length_filter_le (fun x => decide (x.cpsonumber ≠ r.cpsonumber)) rs
  simp only [List.length_cons]
  omega

theorem find?_filter_of_imp {α : Type} (p q : α → Bool)
    (himp : ∀ x, p x = true → q x = true) :
    ∀ l : List α, (l.filter q).find? p = l.find? p := by
  intro l
  induction l with
  | nil => simp
  | cons x xs ih =>
    by_cases hq : q x = true
    · by_cases hp : p x = true <;> simp [List.filter_cons, hq, List.find?_cons, hp, ih]
    · have hp : p x = false := by
        cases hpx : p x
        · rfl
        · exact absurd (himp x hpx) hq
      simp [List.filter_cons, hq, List.find?_cons, hp, ih]

theorem dedup_subset :
    ∀ (rows : List DetailRecord), ∀ r ∈ drop_duplicates_by_cpso rows, r ∈ rows := by
  intro rows
  induction rows using drop_duplicates_by_cpso.induct with
  | case1 => simp [drop_duplicates_by_cpso]
  | case2 r rs ih =>
    intro x hx
    rw [drop_duplicates_by_cpso] at hx
    rcases List.mem_cons.mp hx with hx | hx
    · exact hx ▸ List.mem_cons_self r rs
    · exact List.mem_cons_of_mem r (List.mem_of_mem_filter (ih x hx))

theorem dedup_find? :
    ∀ (rows : List DetailRecord) (id : String),
      (drop_duplicates_by_cpso rows).find? (fun r => r.cpsonumber == id) =
        rows.find? (fun r => r.cpsonumber == id) := by
  intro rows
  induction rows using drop_duplicates_by_cpso.induct with
  | case1 => intro id; simp [drop_duplicates_by_cpso]
  | case2 r rs ih =>
    intro id
    rw [drop_duplicates_by_cpso]
    by_cases hid : r.cpsonumber = id
    · simp [List.find?_cons, hid]
    · have hpr : (r.cpsonumber == id) = false := by simp [hid]
      rw [List.find?_cons, hpr, List.find?_cons, hpr, ih id,
        find?_filter_of_imp _ _ ?_ rs]
      intro x hx
      simp only [beq_iff_eq] at hx
      simp only [hx, ne_eq, decide_eq_true_eq]
      exact fun hh => hid hh.symm

theorem dedup_ids_nodup :
    ∀ (rows : List DetailRecord),
      ((drop_duplicates_by_cpso rows).map (fun r => r.cpsonumber)).Nodup := by
  intro rows
  induction rows using drop_duplicates_by_cpso.induct with
  | case1 => simp [drop_duplicates_by_cpso]
  | case2 r rs ih =>
    rw [drop_duplicates_by_cpso]
    simp only [List.map_cons, List.nodup_cons]
    refine ⟨?_, ih⟩
    intro hmem
    obtain ⟨x, hx, hxid⟩ := List.mem_map.mp hmem
    have hxin := dedup_subset _ x hx
    have := (List.mem_filter.mp hxin).2
    simp only [decide_eq_true_eq] at this
    exact this hxid

theorem dedup_ids_complete :
    ∀ (rows : List DetailRecord), ∀ r ∈ rows,
      ∃ q ∈ drop_duplicates_by_cpso rows, q.cpsonumber = r.cpsonumber := by
  intro rows
  induction rows using drop_duplicates_by_cpso.induct with
  | case1 => simp
  | case2 r rs ih =>
    intro x hx
    rw [drop_duplicates_by_cpso]
    rcases List.mem_cons.mp hx with hx | hx
    · exact ⟨r, List.mem_cons_self _ _, by rw [hx]⟩
    · by_cases hsame : x.cpsonumber = r.cpsonumber
      · exact ⟨r, List.mem_cons_self _ _, hsame.symm⟩
      · obtain ⟨q, hq, hqid⟩ := ih x (List.mem_filter.mpr ⟨hx, by simp [hsame]⟩)
        exact ⟨q, List.mem_cons_of_mem r hq, hqid⟩

/-- C7: deduplication keeps exactly one row per distinct cpsonumber: the
surviving identifiers are pairwise distinct, every surviving row comes
from the input, every input identifier survives, and for each identifier
the surviving row is the first-seen row of the input with that
identifier. -/
theorem C7_dedup_first_seen :
    (∀ rows : List DetailRecord,
      ((drop_duplicates_by_cpso rows).map (fun r => r.cpsonumber)).Nodup) ∧
    (∀ (rows : List DetailRecord) (id : String),
      (drop_duplicates_by_cpso rows).find? (fun r => r.cpsonumber == id) =
        rows.find? (fun r => r.cpsonumber == id)) ∧
    (∀ rows : List DetailRecord, ∀ r ∈ drop_duplicates_by_cpso rows, r ∈ rows) ∧
    (∀ rows : List DetailRecord, ∀ r ∈ rows,
      ∃ q ∈ drop_duplicates_by_cpso rows, q.cpsonumber = r.cpsonumber) :=
  ⟨dedup_ids_nodup, dedup_find?, dedup_subset, dedup_ids_complete⟩

/-- C7 witness: with two records both carrying id CPSO-1 but different
field values, the deduplicated table keeps the first record only. -/
theorem C7_dedup_first_seen_witness :
    ((drop_duplicates_by_cpso
        [⟨"CPSO-1", [("field", "A")]⟩, ⟨"CPSO-1", [("field", "B")]⟩]).find?
        (fun r => r.cpsonumber == "CPSO-1") =
      ([⟨"CPSO-1", [("field", "A")]⟩, ⟨"CPSO-1", [("field", "B")]⟩] :
          List DetailRecord).find? (fun r => r.cpsonumber == "CPSO-1")) ∧
    (∃ q ∈ drop_duplicates_by_cpso
        [⟨"CPSO-1", [("field", "A")]⟩, ⟨"CPSO-1", [("field", "B")]⟩],
      q.cpsonumber = (⟨"CPSO-1", [("field", "B")]⟩ : DetailRecord).cpsonumber) :=
  ⟨C7_dedup_first_seen.2.1 _ "CPSO-1",
   C7_dedup_first_seen.2.2.2 _ _ (by decide)⟩

/-- The digit extraction of format_phone (create-output.py line 26):
every character that is not a digit is removed. -/
def phDigits (number : String) : List Char :=
  number.toList.filter Char.isDigit

/-- The formatted rendering of ten digits (create-output.py line 30):
an opening parenthesis, the first three digits, a closing parenthesis and
a space, digits four to six, a dash, and the last four digits. -/
def phBuild (digits : List Char) : String :=
  "(" ++ String.mk (digits.take 3) ++ ") " ++ String.mk ((digits.drop 3).take 3)
    ++ "-" ++ String.mk (digits.drop 6)

/-- format_phone (create-output.py lines 15-32): strip non-digits, format
when exactly ten digits remain, otherwise return the marker none. -/
def format_phone (number : String) : Option String :=
  if (phDigits number).length = 10 then some (phBuild (phDigits number)) else none

theorem toList_mk (l : List Char) : (String.mk l).toList = l := rfl

theorem toList_phBuild (d : List Char) :
    (phBuild d).toList =
      '(' :: (d.take 3 ++ (')' :: ' ' :: ((d.drop 3).take 3 ++ ('-' :: d.drop 6)))) := by
  rw [phBuild]
  simp only [toList_append, toList_mk]
  have h1 : ("(" : String).toList = ['('] := rfl
  have h2 : (") " : String).toList = [')', ' '] := rfl
  have h3 : ("-" : String).toList = ['-'] := rfl
  rw [h1, h2, h3]
  simp

theorem mem_phDigits_isDigit (s : String) : ∀ c ∈ phDigits s, c.isDigit = true := by
  intro c hc
  exact (List.mem_filter.mp hc).2

theorem phDigits_phBuild (d : List Char) (hd : ∀ c ∈ d, c.isDigit = true) :
    phDigits (phBuild d) = d := by
  rw [phDigits, toList_phBuild]
  have hsub1 : List.filter Char.isDigit (d.take 3) = d.take 3 :=
    List.filter_eq_self.mpr (fun c hc => hd c (List.mem_of_mem_take hc))
  have hsub2 : List.filter Char.isDigit ((d.drop 3).take 3) = (d.drop 3).take 3 :=
    List.filter_eq_self.mpr
      (fun c hc => hd c (List.mem_of_mem_drop (List.mem_of_mem_take hc)))
  have hsub3 : List.filter Char.isDigit (d.drop 6) = d.drop 6 :=
    List.filter_eq_self.mpr (fun c hc => hd c (List.mem_of_mem_drop hc))
  simp only [List.filter_cons, List.filter_append, hsub1, hsub2, hsub3]
  have hdrop : (d.drop 3).take 3 ++ d.drop 6 = d.drop 3 := by
    have h6 : d.drop 6 = (d.drop 3).drop 3 := by
      rw [List.drop_drop]
    rw [h6, List.take_append_drop]
  calc d.take 3 ++ ((d.drop 3).take 3 ++ d.drop 6)
      = d.take 3 ++ d.drop 3 := by rw [hdrop]
    _ = d := List.take_append_drop 3 d

theorem format_phone_of_len10 (s : String) (h10 : (phDigits s).length = 10) :
    format_phone s = some (phBuild (phDigits s)) := by
  rw [format_phone, if_pos h10]

/-- C6: format_phone maps "416-555-1234" to "(416) 555-1234" and "12345"
to the unformattable marker; whenever it succeeds it is a fixpoint on its
own output (so "(416) 555-1234" maps to itself); when exactly ten digits
remain after stripping non-digits the result is the formatted rendering
of those digits; and otherwise the result is the marker, never the raw
input. -/
theorem C6_format_phone :
    format_phone "416-555-1234" = some "(416) 555-1234" ∧
    format_phone "12345" = none ∧
    format_phone "(416) 555-1234" = some "(416) 555-1234" ∧
    (∀ s t : String, format_phone s = some t → format_phone t = some t) ∧
    (∀ s : String, (phDigits s).length = 10 → format_phone s = some (phBuild (phDigits s))) ∧
    (∀ s : String, (phDigits s).length ≠ 10 → format_phone s = none) := by
  refine ⟨by decide, by decide, by decide, ?_, format_phone_of_len10, ?_⟩
  · intro s t h
    rw [format_phone] at h
    by_cases h10 : (phDigits s).length = 10
    · rw [if_pos h10] at h
      have ht : t = phBuild (phDigits s) := (Option.some_inj.mp h).symm
      subst ht
      have hdig : phDigits (phBuild (phDigits s)) = phDigits s :=
        phDigits_phBuild (phDigits s) (mem_phDigits_isDigit s)
      rw [format_phone, hdig, if_pos h10]
    · rw [if_neg h10] at h
      exact absurd h (by simp)
  · intro s hne
    rw [format_phone, if_neg hne]

/-- C6 witness: applying the theorem to the concrete success on
"416-555-1234" shows the output "(416) 555-1234" is itself mapped to
itself. -/
theorem C6_format_phone_witness :
    format_phone "(416) 555-1234" = some "(416) 555-1234" :=
  C6_format_phone.2.2.2.1 "416-555-1234" "(416) 555-1234" (by decide)

/-! ## Fetch loop with backoff (scrape-cpso.py)

The network is modelled by an oracle giving the outcome of each attempt;
attempts are indexed by the value of the retries counter at the moment
the request is issued.  The while loop of fetch_with_backoff runs while
retries is below max_retries, so it is embedded structurally on the
number of remaining iterations, carrying the retries counter, the current
delay and the list of delays slept so far. -/

/-- Parsed payload of a search response; postal_code is the field the
caller attaches after a successful fetch (scrape-cpso.py line 68). -/
structure Payload where
  totalcount : Int
  results : List DetailRecord
  postal_code : Option String
deriving DecidableEq, Repr

/-- Outcome of one network attempt: a 200 response with a parsed body, a
429 response, any other status code, or a raised exception whose message
may contain the invalid-control-character text. -/
inductive FetchOutcome where
  | ok (payload : Payload)
  | status429
  | statusOther (code : Nat)
  | exn (invalidControlChar : Bool)
deriving DecidableEq, Repr

/-- Result of fetch_with_backoff together with the observable effects of
the loop: how many requests were issued and the backoff delays slept, in
order. -/
structure FetchTrace where
  result : Option Payload
  attempts : Nat
  sleeps : List Nat
deriving DecidableEq, Repr

/-- An outcome that falls through to the backoff path of the loop: not a
200 response and not the non-retryable invalid-control-character error. -/
def retryable : FetchOutcome → Bool
  | .ok _ => false
  | .exn true => false
  | _ => true

/-- The while loop of fetch_with_backoff (scrape-cpso.py lines 86-119):
one request per iteration; a 200 response returns its payload at once, an
invalid-control-character exception returns None at once, and every other
outcome sleeps the current delay, doubles it and increments retries. -/
def fetchGo (env : Nat → FetchOutcome) :
    Nat → Nat → Nat → List Nat → FetchTrace
  | 0, retries, _, sleeps => ⟨none, retries, sleeps⟩
  | remaining + 1, retries, delay, sleeps =>
    match env retries with
    | .ok p => ⟨some p, retries + 1, sleeps⟩
    | .exn true => ⟨none, retries + 1, sleeps⟩
    | _ => fetchGo env remaining (retries + 1) (delay * 2) (sleeps ++ [delay])

/-- fetch_with_backoff (scrape-cpso.py line 81): run the loop from a zero
retries counter and the initial delay, with max_retries iterations
available. -/
def fetch_with_backoff (env : Nat → FetchOutcome) (max_retries initial_delay : Nat) :
    FetchTrace :=
  fetchGo env max_retries 0 initial_delay []

/-- The per-key behaviour of fetch_results_with_rate_limit (scrape-cpso.py
lines 64-68): fetch with the default five retries and initial delay two;
on success attach the key as the postal_code field of the payload. -/
def processKey (env : Nat → FetchOutcome) (key : String) : Option Payload :=
  match (fetch_with_backoff env 5 2).result with
  | some p => some ⟨p.totalcount, p.results, some key⟩
  | none => none

theorem fetchGo_step_ok (env : Nat → FetchOutcome) (m r d : Nat) (s : List Nat)
    (p : Payload) (hok : env r = .ok p) :
    fetchGo env (m + 1) r d s = ⟨some p, r + 1, s⟩ := by
  simp [fetchGo, hok]

theorem fetchGo_step_ctrl (env : Nat → FetchOutcome) (m r d : Nat) (s : List Nat)
    (hc : env r = .exn true) :
    fetchGo env (m + 1) r d s = ⟨none, r + 1, s⟩ := by
  simp [fetchGo, hc]

theorem fetchGo_step_retry (env : Nat → FetchOutcome) (m r d : Nat) (s : List Nat)
    (hr : retryable (env r) = true) :
    fetchGo env (m + 1) r d s = fetchGo env m (r + 1) (d * 2) (s ++ [d]) := by
  cases henv : env r with
  | ok q => rw [henv] at hr; simp [retryable] at hr
  | status429 => simp [fetchGo, henv]
  | statusOther c => simp [fetchGo, henv]
  | exn b =>
    cases b with
    | false => simp [fetchGo, henv]
    | true => rw [henv] at hr; simp [retryable] at hr

theorem delays_shift (d m : Nat) (s : List Nat) :
    (s ++ [d]) ++ (List.range m).map (fun i => d * 2 * 2 ^ i) =
      s ++ (List.range (m + 1)).map (fun i => d * 2 ^ i) := by
  rw [List.append_assoc]
  congr 1
  rw [List.range_succ_eq_map, List.map_cons, List.map_map]
  simp only [pow_zero, mul_one, List.singleton_append]
  congr 1
  apply List.map_congr_left
  intro i _
  simp only [Function.comp_apply, pow_succ]
  ring

theorem fetchGo_retry_run (env : Nat → FetchOutcome) :
    ∀ (n m r d : Nat) (s : List Nat),
      (∀ j, r ≤ j → j < r + n → retryable (env j) = true) →
      fetchGo env (n + m) r d s =
        fetchGo env m (r + n) (d * 2 ^ n) (s ++ (List.range n).map (fun i => d * 2 ^ i)) := by
  intro n
  induction n with
  | zero => intro m r d s _; simp
  | succ k ih =>
    intro m r d s hretry
    have hstep : k + 1 + m = (k + m) + 1 := by omega
    rw [hstep, fetchGo_step_retry env (k + m) r d s (hretry r le_rfl (by omega)),
      ih m (r + 1) (d * 2) (s ++ [d]) (fun j hj1 hj2 => hretry j (by omega) (by omega)),
      delays_shift]
    have h1 : r + 1 + k = r + (k + 1) := by omega
    have h2 : d * 2 * 2 ^ k = d * 2 ^ (k + 1) := by ring
    rw [h1, h2]

theorem fetchGo_attempts_le (env : Nat → FetchOutcome) :
    ∀ (n r d : Nat) (s : List Nat), (fetchGo env n r d s).attempts ≤ r + n := by
  intro n
  induction n with
  | zero => intro r d s; simp [fetchGo]
  | succ k ih =>
    intro r d s
    cases henv : env r with
    | ok p =>
      rw [fetchGo_step_ok env k r d s p henv]
      show r + 1 ≤ r + (k + 1)
      omega
    | status429 =>
      rw [fetchGo_step_retry env k r d s (by rw [henv]; rfl)]
      have := ih (r + 1) (d * 2) (s ++ [d])
      omega
    | statusOther c =>
      rw [fetchGo_step_retry env k r d s (by rw [henv]; rfl)]
      have := ih (r + 1) (d * 2) (s ++ [d])
      omega
    | exn b =>
      cases b with
      | true =>
        rw [fetchGo_step_ctrl env k r d s henv]
        show r + 1 ≤ r + (k + 1)
        omega
      | false =>
        rw [fetchGo_step_retry env k r d s (by rw [henv]; rfl)]
        have := ih (r + 1) (d * 2) (s ++ [d])
        omega

theorem fetch_with_backoff_success (env : Nat → FetchOutcome) (k : Nat) (p : Payload)
    (hk : k < 5) (hpre : ∀ j, j < k → retryable (env j) = true) (hok : env k = .ok p) :
    fetch_with_backoff env 5 2 =
      ⟨some p, k + 1, (List.range k).map (fun i => 2 * 2 ^ i)⟩ := by
  have hsplit : 5 = k + (4 - k + 1) := by omega
  rw [fetch_with_backoff, hsplit,
    fetchGo_retry_run env k (4 - k + 1) 0 2 [] (fun j hj1 hj2 => hpre j (by omega)),
    Nat.zero_add, fetchGo_step_ok env (4 - k) k (2 * 2 ^ k) _ p hok, List.nil_append]

theorem fetch_with_backoff_ctrl (env : Nat → FetchOutcome) (k : Nat)
    (hk : k < 5) (hpre : ∀ j, j < k → retryable (env j) = true) (hc : env k = .exn true) :
    fetch_with_backoff env 5 2 =
      ⟨none, k + 1, (List.range k).map (fun i => 2 * 2 ^ i)⟩ := by
  have hsplit : 5 = k + (4 - k + 1) := by omega
  rw [fetch_with_backoff, hsplit,
    fetchGo_retry_run env k (4 - k + 1) 0 2 [] (fun j hj1 hj2 => hpre j (by omega)),
    Nat.zero_add, fetchGo_step_ctrl env (4 - k) k (2 * 2 ^ k) _ hc, List.nil_append]

theorem fetch_with_backoff_exhaust (env : Nat → FetchOutcome)
    (hretry : ∀ j, j < 5 → retryable (env j) = true) :
    fetch_with_backoff env 5 2 = ⟨none, 5, [2, 4, 8, 16, 32]⟩ := by
  have hsplit : (5 : Nat) = 5 + 0 := rfl
  rw [fetch_with_backoff, hsplit,
    fetchGo_retry_run env 5 0 0 2 [] (fun j hj1 hj2 => hretry j (by omega))]
  have hdelays : (List.range 5).map (fun i => 2 * 2 ^ i) = [2, 4, 8, 16, 32] := by decide
  rw [fetchGo, List.nil_append, hdelays]

/-- C4: fetch_with_backoff makes at most five attempts; when the first
k attempts are retryable and attempt k returns status 200, the parsed
payload is returned after exactly the backoff delays 2, 4, ..., doubling
from the initial delay 2, and the caller attaches the key as the
postal_code field; when every attempt is retryable the loop exhausts its
five retries, sleeps the delays 2, 4, 8, 16, 32 and returns a failure
value rather than a payload. -/
theorem C4_fetch_with_backoff (env : Nat → FetchOutcome) :
    (fetch_with_backoff env 5 2).attempts ≤ 5 ∧
    (∀ (k : Nat) (p : Payload), k < 5 → (∀ j, j < k → retryable (env j) = true) →
      env k = .ok p →
      fetch_with_backoff env 5 2 =
        ⟨some p, k + 1, (List.range k).map (fun i => 2 * 2 ^ i)⟩ ∧
      ∀ key : String, processKey env key = some ⟨p.totalcount, p.results, some key⟩) ∧
    ((∀ j, j < 5 → retryable (env j) = true) →
      fetch_with_backoff env 5 2 = ⟨none, 5, [2, 4, 8, 16, 32]⟩) := by
  refine ⟨?_, ?_, fetch_with_backoff_exhaust env⟩
  · have := fetchGo_attempts_le env 5 0 2 []
    simpa [fetch_with_backoff] using this
  · intro k p hk hpre hok
    have hfetch := fetch_with_backoff_success env k p hk hpre hok
    refine ⟨hfetch, fun key => ?_⟩
    rw [processKey, hfetch]

/-- C4 witness: with every attempt rate limited the trace is the failure
with delays 2, 4, 8, 16, 32; with a first-attempt success the payload
comes back after one attempt and no sleeps, and the key is attached. -/
theorem C4_fetch_with_backoff_witness :
    fetch_with_backoff (fun _ => FetchOutcome.status429) 5 2 = ⟨none, 5, [2, 4, 8, 16, 32]⟩ ∧
    fetch_with_backoff (fun _ => FetchOutcome.ok ⟨3, [], none⟩) 5 2 =
      ⟨some ⟨3, [], none⟩, 1, []⟩ ∧
    processKey (fun _ => FetchOutcome.ok ⟨3, [], none⟩) "K1A" = some ⟨3, [], some "K1A"⟩ := by
  have hsucc := (C4_fetch_with_backoff (fun _ => FetchOutcome.ok ⟨3, [], none⟩)).2.1 0
    ⟨3, [], none⟩ (by omega) (fun j hj => absurd hj (Nat.not_lt_zero j)) rfl
  exact ⟨(C4_fetch_with_backoff (fun _ => FetchOutcome.status429)).2.2 (fun j _ => rfl),
    by simpa using hsucc.1, hsucc.2 "K1A"⟩

/-- The raw-store file name used for one query (scrape-cpso.py line 76):
the key, doctor type and last name joined by "+" with a .json suffix. -/
def rawFileName (key doctor_type last_name : String) : String :=
  key ++ "+" ++ doctor_type ++ "+" ++ last_name ++ ".json"

/-- Writing a file: a name already present in the store has its contents
replaced, a new name is appended at the end of the directory listing. -/
def storeWrite (store : List (String × Payload)) (name : String) (p : Payload) :
    List (String × Payload) :=
  if store.any (fun e => e.1 = name) then
    store.map (fun e => if e.1 = name then (name, p) else e)
  else store ++ [(name, p)]

/-- Reading a file by name from the store. -/
def storeLookup (store : List (String × Payload)) (name : String) : Option Payload :=
  (store.find? (fun e => e.1 == name)).map (fun e => e.2)

/-- One iteration of the key loop of fetch_results_with_rate_limit
(scrape-cpso.py lines 26-77): fetch the key; on success append the
payload (with the key attached) to the results and write it to the raw
store under the deterministic file name; on failure leave both alone. -/
def fetchStep (envs : String → Nat → FetchOutcome) (doctor_type last_name : String)
    (acc : List Payload × List (String × Payload)) (key : String) :
    List Payload × List (String × Payload) :=
  match processKey (envs key) key with
  | some p => (acc.1 ++ [p], storeWrite acc.2 (rawFileName key doctor_type last_name) p)
  | none => acc

/-- fetch_results_with_rate_limit (scrape-cpso.py lines 10-79): run the
key loop over the whole key list, starting from an empty results list and
the given raw store. -/
def fetch_results_with_rate_limit (envs : String → Nat → FetchOutcome)
    (postal_codes : List String) (doctor_type last_name : String)
    (store : List (String × Payload)) : List Payload × List (String × Payload) :=
  postal_codes.foldl (fetchStep envs doctor_type last_name) ([], store)

theorem fetch_results_fst_go (envs : String → Nat → FetchOutcome)
    (doctor_type last_name : String) :
    ∀ (keys : List String) (acc : List Payload) (store : List (String × Payload)),
      (keys.foldl (fetchStep envs doctor_type last_name) (acc, store)).1 =
        acc ++ keys.filterMap (fun key => processKey (envs key) key) := by
  intro keys
  induction keys with
  | nil => intro acc store; simp
  | cons key rest ih =>
    intro acc store
    rw [List.foldl_cons, List.filterMap_cons]
    cases hk : processKey (envs key) key with
    | none => rw [fetchStep, hk]; exact ih acc store
    | some p =>
      rw [fetchStep, hk]
      rw [ih (acc ++ [p]) (storeWrite store (rawFileName key doctor_type last_name) p)]
      simp

theorem fetch_results_fst (envs : String → Nat → FetchOutcome)
    (keys : List String) (doctor_type last_name : String)
    (store : List (String × Payload)) :
    (fetch_results_with_rate_limit envs keys doctor_type last_name store).1 =
      keys.filterMap (fun key => processKey (envs key) key) := by
  rw [fetch_results_with_rate_limit, fetch_results_fst_go]
  simp

/-- C5: when the first k attempts for a key are retryable and attempt k
raises the invalid-control-character parsing error, fetch_with_backoff
returns the failure value at once: only the k earlier backoff delays were
slept (none for the failing attempt, so the retry counter was never
incremented past k) and no further attempt is made; processKey yields no
payload for the key, and the key loop simply skips such keys, returning
the successful payloads of the remaining keys. -/
theorem C5_control_char_fail_fast (env : Nat → FetchOutcome) (k : Nat) (hk : k < 5)
    (hpre : ∀ j, j < k → retryable (env j) = true) (hbad : env k = .exn true) :
    fetch_with_backoff env 5 2 =
      ⟨none, k + 1, (List.range k).map (fun i => 2 * 2 ^ i)⟩ ∧
    (fetch_with_backoff env 5 2).sleeps.length = k ∧
    (∀ key, processKey env key = none) ∧
    (∀ (envs : String → Nat → FetchOutcome) (keys : List String)
      (doctor_type last_name : String) (store : List (String × Payload)),
      (fetch_results_with_rate_limit envs keys doctor_type last_name store).1 =
        keys.filterMap (fun key => processKey (envs key) key)) := by
  have hfetch := fetch_with_backoff_ctrl env k hk hpre hbad
  refine ⟨hfetch, ?_, fun key => ?_, fun envs keys dt ln store => fetch_results_fst _ _ _ _ _⟩
  · rw [hfetch]
    simp
  · rw [processKey, hfetch]

/-- C5 witness: a key whose first attempt raises the control-character
error gives a one-attempt, zero-sleep failure trace, and in a loop over a
failing key followed by a succeeding key only the latter contributes a
payload. -/
theorem C5_control_char_fail_fast_witness :
    fetch_with_backoff (fun _ => FetchOutcome.exn true) 5 2 = ⟨none, 1, []⟩ ∧
    (fetch_results_with_rate_limit
        (fun key => if key = "BAD" then (fun _ => FetchOutcome.exn true)
          else (fun _ => FetchOutcome.ok ⟨2, [], none⟩))
        ["BAD", "GOOD"] "Any" "Any" []).1 = [⟨2, [], some "GOOD"⟩] := by
  have h := C5_control_char_fail_fast (fun _ => FetchOutcome.exn true) 0 (by omega)
    (fun j hj => absurd hj (Nat.not_lt_zero j)) rfl
  constructor
  · simpa using h.1
  · rw [h.2.2.2 (fun key => if key = "BAD" then (fun _ => FetchOutcome.exn true)
      else (fun _ => FetchOutcome.ok ⟨2, [], none⟩)) ["BAD", "GOOD"] "Any" "Any" []]
    rfl

/-! ## Raw-store lemmas for the re-run behaviour of the fetch stage -/

theorem storeLookup_cons (e : String × Payload) (l : List (String × Payload)) (m : String) :
    storeLookup (e :: l) m = if e.1 = m then some e.2 else storeLookup l m := by
  by_cases h : e.1 = m
  · rw [storeLookup, List.find?_cons_of_pos _ (by simpa using h), if_pos h]
    rfl
  · rw [storeLookup, List.find?_cons_of_neg _ (by simpa using h), if_neg h]
    rfl

theorem names_storeWrite (s : List (String × Payload)) (n : String) (p : Payload) :
    (storeWrite s n p).map Prod.fst =
      if s.any (fun e => e.1 = n) then s.map Prod.fst else s.map Prod.fst ++ [n] := by
  rw [storeWrite]
  by_cases h : s.any (fun e => e.1 = n) = true
  · rw [if_pos h, if_pos h, List.map_map]
    apply List.map_congr_left
    intro e _
    by_cases he1 : e.1 = n <;> simp [he1]
  · rw [if_neg h, if_neg h]
    simp

theorem not_mem_names_of_any_false (s : List (String × Payload)) (n : String)
    (h : ¬ s.any (fun e => e.1 = n) = true) : n ∉ s.map Prod.fst := by
  intro hmem
  obtain ⟨e, he, hfst⟩ := List.mem_map.mp hmem
  exact h (List.any_eq_true.mpr ⟨e, he, by simp [hfst]⟩)

theorem mem_names_any (s : List (String × Payload)) (n : String)
    (h : n ∈ s.map Prod.fst) : s.any (fun e => e.1 = n) = true := by
  obtain ⟨e, he, hfst⟩ := List.mem_map.mp h
  exact List.any_eq_true.mpr ⟨e, he, by simp [hfst]⟩

theorem nodup_names_storeWrite (s : List (String × Payload)) (n : String) (p : Payload)
    (h : (s.map Prod.fst).Nodup) : ((storeWrite s n p).map Prod.fst).Nodup := by
  rw [names_storeWrite]
  by_cases hany : s.any (fun e => e.1 = n) = true
  · rw [if_pos hany]; exact h
  · rw [if_neg hany]
    simp only [List.nodup_append, List.nodup_cons, List.not_mem_nil, not_false_iff,
      List.nodup_nil, and_true, true_and]
    refine ⟨h, ?_⟩
    intro m hm hmem
    rw [List.mem_singleton.mp hmem] at hm
    exact not_mem_names_of_any_false s n hany hm

theorem storeLookup_eq_none (s : List (String × Payload)) (n : String)
    (h : n ∉ s.map Prod.fst) : storeLookup s n = none := by
  rw [storeLookup, List.find?_eq_none.mpr]
  · rfl
  · intro e he
    simp only [beq_iff_eq]
    intro hee
    exact h (List.mem_map.mpr ⟨e, he, hee⟩)

theorem storeLookup_map_update (s : List (String × Payload)) (n m : String) (p : Payload) :
    storeLookup (s.map (fun e => if e.1 = n then (n, p) else e)) m =
      if m = n then (if s.any (fun e => e.1 = n) then some p else none)
      else storeLookup s m := by
  induction s with
  | nil => by_cases hm : m = n <;> simp [storeLookup, hm]
  | cons e es ih =>
    rw [List.map_cons]
    by_cases he : e.1 = n
    · rw [if_pos he, storeLookup_cons]
      by_cases hm : m = n
      · rw [if_pos (by simpa using hm.symm), if_pos hm, if_pos (by simp [he])]
      · rw [if_neg (by simpa using fun hh => hm hh.symm), ih, if_neg hm, if_neg hm,
          storeLookup_cons, if_neg (by rw [he]; exact fun hh => hm hh.symm)]
    · rw [if_neg he, storeLookup_cons]
      by_cases hm : m = n
      · rw [if_neg (by rw [hm]; exact he), ih, if_pos hm, if_pos hm]
        have hany2 : ((e :: es).any fun x => decide (x.1 = n)) =
            (es.any fun x => decide (x.1 = n)) := by
          simp [List.any_cons, he]
        rw [hany2]
      · rw [ih, if_neg hm, if_neg hm, storeLookup_cons]

theorem storeLookup_storeWrite (s : List (String × Payload)) (n m : String) (p : Payload) :
    storeLookup (storeWrite s n p) m = if m = n then some p else storeLookup s m := by
  rw [storeWrite]
  by_cases hany : s.any (fun e => e.1 = n) = true
  · rw [if_pos hany, storeLookup_map_update, hany]
    by_cases hm : m = n <;> simp [hm]
  · rw [if_neg hany]
    by_cases hm : m = n
    · subst hm
      rw [if_pos rfl, storeLookup, List.find?_append]
      have hnone : List.find? (fun e => e.1 == m) s = none := by
        apply List.find?_eq_none.mpr
        intro e he
        simp only [beq_iff_eq]
        intro hee
        exact hany (List.any_eq_true.mpr ⟨e, he, by simp [hee]⟩)
      rw [hnone, List.find?_cons_of_pos _ (by simp)]
      rfl
    · rw [if_neg hm, storeLookup, List.find?_append, storeLookup]
      have hsingle : List.find? (fun e => e.1 == m) [(n, p)] = none := by
        apply List.find?_eq_none.mpr
        intro e he
        rw [List.mem_singleton.mp he]
        simp only [beq_iff_eq]
        exact fun hh => hm hh.symm
      rw [hsingle]
      cases List.find? (fun e => e.1 == m) s <;> rfl

/-- Applying a sequence of file writes to a store, in order. -/
def applyWrites (ws : List (String × Payload)) (store : List (String × Payload)) :
    List (String × Payload) :=
  ws.foldl (fun st w => storeWrite st w.1 w.2) store

/-- The last payload written to a given name by a write sequence. -/
def lastWrite : List (String × Payload) → String → Option Payload
  | [], _ => none
  | w :: rest, name =>
    match lastWrite rest name with
    | some p => some p
    | none => if w.1 = name then some w.2 else none

/-- The sequence of raw-file writes performed by one run of the key loop:
one write per key whose fetch succeeds, under the deterministic file
name. -/
def runWrites (envs : String → Nat → FetchOutcome) (doctor_type last_name : String)
    (keys : List String) : List (String × Payload) :=
  keys.filterMap (fun key =>
    (processKey (envs key) key).map (fun p => (rawFileName key doctor_type last_name, p)))

theorem applyWrites_cons (w : String × Payload) (ws s : List (String × Payload)) :
    applyWrites (w :: ws) s = applyWrites ws (storeWrite s w.1 w.2) := rfl

theorem storeLookup_applyWrites :
    ∀ (ws s : List (String × Payload)) (m : String),
      storeLookup (applyWrites ws s) m =
        match lastWrite ws m with
        | some p => some p
        | none => storeLookup s m := by
  intro ws
  induction ws with
  | nil => intro s m; simp [applyWrites, lastWrite]
  | cons w rest ih =>
    intro s m
    rw [applyWrites_cons, ih, lastWrite]
    cases hl : lastWrite rest m with
    | some p => simp
    | none =>
      simp only
      rw [storeLookup_storeWrite]
      by_cases hm : m = w.1
      · rw [if_pos hm, if_pos hm.symm]
      · rw [if_neg hm, if_neg (fun hh => hm hh.symm)]

theorem names_mem_applyWrites :
    ∀ (ws s : List (String × Payload)) (m : String),
      m ∈ s.map Prod.fst → m ∈ (applyWrites ws s).map Prod.fst := by
  intro ws
  induction ws with
  | nil => intro s m hm; exact hm
  | cons w rest ih =>
    intro s m hm
    rw [applyWrites_cons]
    apply ih
    rw [names_storeWrite]
    by_cases hany : s.any (fun e => e.1 = w.1) = true
    · rw [if_pos hany]; exact hm
    · rw [if_neg hany]; exact List.mem_append_left _ hm

theorem name_mem_storeWrite (s : List (String × Payload)) (n : String) (p : Payload) :
    n ∈ (storeWrite s n p).map Prod.fst := by
  rw [names_storeWrite]
  by_cases hany : s.any (fun e => e.1 = n) = true
  · rw [if_pos hany]
    obtain ⟨e, he, hfst⟩ := List.any_eq_true.mp hany
    simp only [decide_eq_true_eq] at hfst
    exact List.mem_map.mpr ⟨e, he, hfst⟩
  · rw [if_neg hany]
    exact List.mem_append_right _ (List.mem_singleton.mpr rfl)

theorem writes_names_mem_applyWrites :
    ∀ (ws s : List (String × Payload)), ∀ w ∈ ws,
      w.1 ∈ (applyWrites ws s).map Prod.fst := by
  intro ws
  induction ws with
  | nil => intro s w hw; exact absurd hw (List.not_mem_nil w)
  | cons v rest ih =>
    intro s w hw
    rcases List.mem_cons.mp hw with hw | hw
    · subst hw
      rw [applyWrites_cons]
      exact names_mem_applyWrites rest _ w.1 (name_mem_storeWrite s w.1 w.2)
    · rw [applyWrites_cons]
      exact ih _ w hw

theorem names_applyWrites_of_covered :
    ∀ (ws s : List (String × Payload)), (∀ w ∈ ws, w.1 ∈ s.map Prod.fst) →
      (applyWrites ws s).map Prod.fst = s.map Prod.fst := by
  intro ws
  induction ws with
  | nil => intro s _; rfl
  | cons w rest ih =>
    intro s hcov
    rw [applyWrites_cons]
    have hwrite : (storeWrite s w.1 w.2).map Prod.fst = s.map Prod.fst := by
      rw [names_storeWrite,
        if_pos (mem_names_any s w.1 (hcov w (List.mem_cons_self w rest)))]
    rw [ih (storeWrite s w.1 w.2) ?_, hwrite]
    intro v hv
    rw [hwrite]
    exact hcov v (List.mem_cons_of_mem w hv)

theorem nodup_names_applyWrites :
    ∀ (ws s : List (String × Payload)), (s.map Prod.fst).Nodup →
      ((applyWrites ws s).map Prod.fst).Nodup := by
  intro ws
  induction ws with
  | nil => intro s h; exact h
  | cons w rest ih =>
    intro s h
    rw [applyWrites_cons]
    exact ih _ (nodup_names_storeWrite s w.1 w.2 h)

theorem store_ext :
    ∀ (s t : List (String × Payload)),
      s.map Prod.fst = t.map Prod.fst → (s.map Prod.fst).Nodup →
      (∀ m, storeLookup s m = storeLookup t m) → s = t := by
  intro s
  induction s with
  | nil =>
    intro t hnames _ _
    exact (List.map_eq_nil_iff.mp hnames.symm).symm
  | cons e es ih =>
    intro t hnames hnodup hlook
    cases t with
    | nil => exact absurd hnames (by simp)
    | cons f ft =>
      simp only [List.map_cons, List.cons.injEq] at hnames
      obtain ⟨hfst, htail⟩ := hnames
      have hval : e.2 = f.2 := by
        have hl := hlook e.1
        rw [storeLookup_cons, storeLookup_cons, if_pos rfl, if_pos hfst.symm] at hl
        exact Option.some_inj.mp hl
      rw [List.map_cons] at hnodup
      have hnod := List.nodup_cons.mp hnodup
      have htaileq : es = ft := by
        apply ih ft htail hnod.2
        intro m
        by_cases hm : m = e.1
        · subst hm
          rw [storeLookup_eq_none es e.1 hnod.1,
            storeLookup_eq_none ft e.1 (htail ▸ hnod.1)]
        · have hl := hlook m
          rw [storeLookup_cons, storeLookup_cons,
            if_neg (fun hh => hm hh.symm), if_neg (by rw [← hfst]; exact fun hh => hm hh.symm)]
            at hl
          exact hl
      calc e :: es = f :: es := by rw [Prod.ext_iff.mpr ⟨hfst, hval⟩]
        _ = f :: ft := by rw [htaileq]

theorem fetch_results_snd_go (envs : String → Nat → FetchOutcome)
    (doctor_type last_name : String) :
    ∀ (keys : List String) (acc : List Payload) (store : List (String × Payload)),
      (keys.foldl (fetchStep envs doctor_type last_name) (acc, store)).2 =
        applyWrites (runWrites envs doctor_type last_name keys) store := by
  intro keys
  induction keys with
  | nil => intro acc store; rfl
  | cons key rest ih =>
    intro acc store
    rw [List.foldl_cons, runWrites, List.filterMap_cons]
    cases hk : processKey (envs key) key with
    | none =>
      rw [fetchStep, hk]
      simp only [Option.map_none']
      exact ih acc store
    | some p =>
      rw [fetchStep, hk]
      simp only [Option.map_some']
      rw [applyWrites_cons]
      exact ih _ _

theorem fetch_results_snd (envs : String → Nat → FetchOutcome) (keys : List String)
    (doctor_type last_name : String) (store : List (String × Payload)) :
    (fetch_results_with_rate_limit envs keys doctor_type last_name store).2 =
      applyWrites (runWrites envs doctor_type last_name keys) store := by
  rw [fetch_results_with_rate_limit, fetch_results_snd_go]

theorem applyWrites_idem (ws : List (String × Payload)) :
    applyWrites ws (applyWrites ws []) = applyWrites ws [] := by
  have hcov : ∀ w ∈ ws, w.1 ∈ (applyWrites ws ([] : List (String × Payload))).map Prod.fst :=
    fun w hw => writes_names_mem_applyWrites ws [] w hw
  have hnames : (applyWrites ws (applyWrites ws [])).map Prod.fst =
      (applyWrites ws ([] : List (String × Payload))).map Prod.fst :=
    names_applyWrites_of_covered ws (applyWrites ws []) hcov
  apply store_ext _ _ hnames
  · rw [hnames]
    exact nodup_names_applyWrites ws [] (by simp)
  · intro m
    rw [storeLookup_applyWrites, storeLookup_applyWrites]
    cases hl : lastWrite ws m <;> rfl

/-- The number of network requests one run of the key loop issues: the
loop calls fetch_with_backoff once for every key of the list, without
ever consulting the raw store first (scrape-cpso.py lines 26-64 contain
no check of existing files). -/
def runAttempts (envs : String → Nat → FetchOutcome) (keys : List String) : Nat :=
  (keys.map (fun key => (fetch_with_backoff (envs key) 5 2).attempts)).sum

/-- C8 counterexample: after a first run persists key "K1A" as Complete
(totalcount 3, nonnegative) in the raw store, a second run over the same
seed set still issues one network request for "K1A": the request count of
a run does not depend on the store at all, so the key is re-fetched, not
skipped as the claim asserts. -/
theorem C8_rerun_counterexample :
    storeLookup
        (fetch_results_with_rate_limit (fun _ _ => FetchOutcome.ok ⟨3, [], none⟩)
          ["K1A"] "Any" "Any" []).2
        (rawFileName "K1A" "Any" "Any") = some ⟨3, [], some "K1A"⟩ ∧
    runAttempts (fun _ _ => FetchOutcome.ok ⟨3, [], none⟩) ["K1A"] = 1 := by
  constructor <;> rfl

/-- C8 (amended): re-running the fetch stage over the same seed key set
with the already-populated raw store re-fetches every key (there is no
skip of keys persisted as Complete), but because each key deterministically
maps to the same (key, doctor_type, last_name) file name and writes
overwrite, the store after the second run is identical to the store after
the first run, with no duplicate raw file names, and the returned results
are identical too, so the aggregate output is unchanged. -/
theorem C8_rerun_idempotent (envs : String → Nat → FetchOutcome)
    (keys : List String) (doctor_type last_name : String) :
    ((fetch_results_with_rate_limit envs keys doctor_type last_name []).2.map
      Prod.fst).Nodup ∧
    (fetch_results_with_rate_limit envs keys doctor_type last_name
        (fetch_results_with_rate_limit envs keys doctor_type last_name []).2).2 =
      (fetch_results_with_rate_limit envs keys doctor_type last_name []).2 ∧
    (fetch_results_with_rate_limit envs keys doctor_type last_name
        (fetch_results_with_rate_limit envs keys doctor_type last_name []).2).1 =
      (fetch_results_with_rate_limit envs keys doctor_type last_name []).1 := by
  refine ⟨?_, ?_, ?_⟩
  · rw [fetch_results_snd]
    exact nodup_names_applyWrites _ [] (by simp)
  · rw [fetch_results_snd, fetch_results_snd]
    exact applyWrites_idem _
  · rw [fetch_results_fst, fetch_results_fst]

/-- The printed run summary of run_simple_scrape (scrape-cpso.py lines
148-150): the total doctor count over the returned results and the number
of postal codes searched.  These two numbers are all the summary holds. -/
structure RunSummary where
  total_doctors : Nat
  num_postal_codes : Nat
deriving DecidableEq, Repr

/-- run_simple_scrape (scrape-cpso.py lines 131-151): run the key loop
and report the summary counts alongside the results and the store. -/
def run_simple_scrape (envs : String → Nat → FetchOutcome) (postal_codes : List String)
    (doctor_type last_name : String) (store : List (String × Payload)) :
    (List Payload × List (String × Payload)) × RunSummary :=
  let out := fetch_results_with_rate_limit envs postal_codes doctor_type last_name store
  (out, ⟨(out.1.map (fun r => r.results.length)).sum, postal_codes.length⟩)

theorem mem_results_postal_code (envs : String → Nat → FetchOutcome) (keys : List String)
    (doctor_type last_name : String) (store : List (String × Payload)) :
    ∀ p ∈ (fetch_results_with_rate_limit envs keys doctor_type last_name store).1,
      ∃ k ∈ keys, processKey (envs k) k = some p ∧ p.postal_code = some k := by
  rw [fetch_results_fst]
  intro p hp
  obtain ⟨k, hk, hpk⟩ := List.mem_filterMap.mp hp
  refine ⟨k, hk, hpk, ?_⟩
  rw [processKey] at hpk
  cases hres : (fetch_with_backoff (envs k) 5 2).result with
  | none => rw [hres] at hpk; exact absurd hpk (by simp)
  | some q =>
    rw [hres] at hpk
    have := Option.some_inj.mp hpk
    rw [← this]

/-- C9 counterexample: in a run over keys "K1A" and "BAD1" where "BAD1"
fails with the non-retryable parse error, the reported outcome (returned
results, raw store and summary counts) is exactly the same as that of a
run over "K1A" and "BAD2" where "BAD2" fails instead: the identity of the
failed key appears nowhere in the reported outcome, so failed keys are
not reported in the run summary. -/
theorem C9_failed_key_unreported_counterexample :
    run_simple_scrape
        (fun key => if key = "BAD1" then (fun _ => FetchOutcome.exn true)
          else (fun _ => FetchOutcome.ok ⟨3, [], none⟩))
        ["K1A", "BAD1"] "Any" "Any" [] =
      run_simple_scrape
        (fun key => if key = "BAD2" then (fun _ => FetchOutcome.exn true)
          else (fun _ => FetchOutcome.ok ⟨3, [], none⟩))
        ["K1A", "BAD2"] "Any" "Any" [] ∧
    ((run_simple_scrape
        (fun key => if key = "BAD1" then (fun _ => FetchOutcome.exn true)
          else (fun _ => FetchOutcome.ok ⟨3, [], none⟩))
        ["K1A", "BAD1"] "Any" "Any" []).1.1.map (fun p => p.postal_code)) =
      [some "K1A"] := by
  constructor <;> rfl

/-- C9 (amended): a key whose fetch fails contributes no payload to the
returned results (no result carries it as postal_code) and the run
summary reports only the two aggregate counts, the total number of
doctors retrieved and the number of input keys; the failed key itself is
only logged at fetch time, never included in the reported outcome. -/
theorem C9_failed_keys_dropped (envs : String → Nat → FetchOutcome) (keys : List String)
    (doctor_type last_name : String) (store : List (String × Payload)) (key : String)
    (hfail : processKey (envs key) key = none) :
    (∀ p ∈ (run_simple_scrape envs keys doctor_type last_name store).1.1,
      p.postal_code ≠ some key) ∧
    (run_simple_scrape envs keys doctor_type last_name store).2.num_postal_codes =
      keys.length := by
  constructor
  · intro p hp
    obtain ⟨k, hk, hpk, hpc⟩ :=
      mem_results_postal_code envs keys doctor_type last_name store p hp
    rw [hpc]
    intro hEq
    have hkey : k = key := Option.some_inj.mp hEq
    rw [hkey, hfail] at hpk
    exact absurd hpk (by simp)
  · rfl

/-- C9 witness: in the concrete failing run over "K1A" and "BAD1", no
returned payload carries "BAD1" and the summary counts two input keys. -/
theorem C9_failed_keys_dropped_witness :
    (∀ p ∈ (run_simple_scrape
        (fun key => if key = "BAD1" then (fun _ => FetchOutcome.exn true)
          else (fun _ => FetchOutcome.ok ⟨3, [], none⟩))
        ["K1A", "BAD1"] "Any" "Any" []).1.1, p.postal_code ≠ some "BAD1") ∧
    (run_simple_scrape
        (fun key => if key = "BAD1" then (fun _ => FetchOutcome.exn true)
          else (fun _ => FetchOutcome.ok ⟨3, [], none⟩))
        ["K1A", "BAD1"] "Any" "Any" []).2.num_postal_codes = 2 :=
  C9_failed_keys_dropped
    (fun key => if key = "BAD1" then (fun _ => FetchOutcome.exn true)
      else (fun _ => FetchOutcome.ok ⟨3, [], none⟩))
    ["K1A", "BAD1"] "Any" "Any" [] "BAD1" (by rfl)

/-- C1 counterexample: the claim states that every child has length equal
to the parent length plus one, but the rank-1 generator inserts a "+"
separator, so the first child of the 3-character parent "K1A" is the
5-character string "K1A+0", not a 4-character string. -/
theorem C1_rank1_child_length_counterexample :
    "K1A+0" ∈ generate_ldu1_permutations ["K1A"] ∧
      ¬ ("K1A+0" : String).length = ("K1A" : String).length + 1 := by
  constructor
  · rw [generate_ldu1_singleton, VALID_DIGITS_eq]
    decide
  · decide

/-- C1 (amended): at each rank, expanding a singleton input yields exactly
10 children for ranks 1 and 3 and exactly 20 children for rank 2 (digits
0-9 for ranks 1 and 3, the 20-letter restricted alphabet for rank 2); for
ranks 2 and 3 every child is one character longer than the parent, while
for rank 1 every child is two characters longer than the parent because a
"+" separator is inserted before the appended digit, and the child length
counted without "+" characters exceeds the parent length so counted by
exactly one. -/
theorem C1_expand_counts_and_lengths : ∀ p : String,
    (generate_ldu1_permutations [p]).length = 10 ∧
    (generate_ldu2_permutations [p]).length = 20 ∧
    (generate_ldu3_permutations [p]).length = 10 ∧
    (generate_ldu1_permutations [p]).map String.length = List.replicate 10 (p.length + 2) ∧
    (generate_ldu1_permutations [p]).map trueLen = List.replicate 10 (trueLen p + 1) ∧
    (generate_ldu2_permutations [p]).map String.length = List.replicate 20 (p.length + 1) ∧
    (generate_ldu3_permutations [p]).map String.length = List.replicate 10 (p.length + 1) := by
  intro p
  refine ⟨?_, ?_, ?_, ldu1_map_length p, ldu1_map_trueLen p, ldu2_map_length p,
    ldu3_map_length p⟩
  · have h := congrArg List.length (ldu1_map_length p)
    simpa using h
  · have h := congrArg List.length (ldu2_map_length p)
    simpa using h
  · have h := congrArg List.length (ldu3_map_length p)
    simpa using h
